import Mathlib

/-!
Verification of the record normalization and filtering engine of the
freidok-cli repository (`src/freidok_cli/modify.py`).

Python strings are modelled as `List Char`; Python `None` becomes `Option`.
A Python function that can raise an exception is modelled with an `Option`
result, `none` meaning an exception escaped. JSON values are modelled by the
nested inductive `Json`.
-/

/-- Python strings, modelled as character lists. -/
abbrev Str := List Char

/-- Python `s.lower()` (restricted to the char-to-char case). -/
def strLower (s : Str) : Str := s.map Char.toLower

/-- Python substring test `pat in hay`. -/
def strContains (hay pat : Str) : Bool := decide (pat <:+: hay)

/-- Helper for `wsTokens`: accumulates the current token (reversed) in `acc`. -/
def wsTokensAux (acc : Str) : Str → List Str
  | [] => if acc = [] then [] else [acc.reverse]
  | c :: cs =>
      if c.isWhitespace then
        if acc = [] then wsTokensAux [] cs else acc.reverse :: wsTokensAux [] cs
      else wsTokensAux (c :: acc) cs

/-- Python `s.split()` with no argument: the maximal whitespace-free runs,
empty tokens discarded. -/
def wsTokens (s : Str) : List Str := wsTokensAux [] s

/-- Python `s.strip()`: remove leading and trailing whitespace. -/
def trimWs (s : Str) : Str :=
  ((s.dropWhile Char.isWhitespace).reverse.dropWhile Char.isWhitespace).reverse

/-- A JSON tree as decoded from the wire: the `node` argument of
`json_strip_languages` in `src/freidok_cli/modify.py`. -/
inductive Json where
  | null : Json
  | bool (b : Bool) : Json
  | num (n : Int) : Json
  | str (s : Str) : Json
  | arr (xs : List Json) : Json
  | obj (kvs : List (Str × Json)) : Json

mutual

/-- Structural equality of JSON values (Python `==`). -/
def jbeq : Json → Json → Bool
  | .null, .null => true
  | .bool a, .bool b => a == b
  | .num a, .num b => a == b
  | .str a, .str b => a == b
  | .arr a, .arr b => jbeqList a b
  | .obj a, .obj b => jbeqFields a b
  | _, _ => false

def jbeqList : List Json → List Json → Bool
  | [], [] => true
  | a :: as_, b :: bs => jbeq a b && jbeqList as_ bs
  | _, _ => false

def jbeqFields : List (Str × Json) → List (Str × Json) → Bool
  | [], [] => true
  | (k, v) :: kvs, (l, w) :: lws => k == l && jbeq v w && jbeqFields kvs lws
  | _, _ => false

end

mutual

/-- Correctness of `jbeq`, stated as a definition so that the decidable
equality instance below can be built before the theorem section. -/
def jbeq_iff_eq : ∀ a b : Json, jbeq a b = true ↔ a = b
  | .null, .null => by simp [jbeq]
  | .bool _, .bool _ => by simp [jbeq]
  | .num _, .num _ => by simp [jbeq]
  | .str _, .str _ => by simp [jbeq]
  | .arr a, .arr b => by simp [jbeq, jbeqList_iff_eq a b]
  | .obj a, .obj b => by simp [jbeq, jbeqFields_iff_eq a b]
  | .null, .bool _ | .null, .num _ | .null, .str _ | .null, .arr _ | .null, .obj _
  | .bool _, .null | .bool _, .num _ | .bool _, .str _ | .bool _, .arr _ | .bool _, .obj _
  | .num _, .null | .num _, .bool _ | .num _, .str _ | .num _, .arr _ | .num _, .obj _
  | .str _, .null | .str _, .bool _ | .str _, .num _ | .str _, .arr _ | .str _, .obj _
  | .arr _, .null | .arr _, .bool _ | .arr _, .num _ | .arr _, .str _ | .arr _, .obj _
  | .obj _, .null | .obj _, .bool _ | .obj _, .num _ | .obj _, .str _ | .obj _, .arr _ =>
      by simp [jbeq]

def jbeqList_iff_eq : ∀ a b : List Json, jbeqList a b = true ↔ a = b
  | [], [] => by simp [jbeqList]
  | a :: as_, b :: bs => by
      simp [jbeqList, jbeq_iff_eq a b, jbeqList_iff_eq as_ bs]
  | [], _ :: _ => by simp [jbeqList]
  | _ :: _, [] => by simp [jbeqList]

def jbeqFields_iff_eq : ∀ a b : List (Str × Json), jbeqFields a b = true ↔ a = b
  | [], [] => by simp [jbeqFields]
  | (k, v) :: kvs, (l, w) :: lws => by
      simp [jbeqFields, jbeq_iff_eq v w, jbeqFields_iff_eq kvs lws, Prod.ext_iff, and_assoc]
  | [], _ :: _ => by simp [jbeqFields]
  | _ :: _, [] => by simp [jbeqFields]

end

instance : DecidableEq Json := fun a b => decidable_of_iff _ (jbeq_iff_eq a b)

/-- `preference_index` from `src/freidok_cli/modify.py`: the first index of
`value` in `preferred_values`, or `len(preferred_values)` when a
`ValueError` is caught. -/
def preference_index {α : Type} [DecidableEq α] (value : α) (preferred_values : List α) : Nat :=
  match preferred_values with
  | [] => 0
  | p :: ps => if p = value then 0 else preference_index value ps + 1

/-- Python `list.sort(key=...)` with natural-number keys bounded by `bound`:
the stable sort, realized as a bucket pass in increasing key order. -/
def stableSortByKey {α : Type} (key : α → Nat) (bound : Nat) (l : List α) : List α :=
  (List.range (bound + 1)).flatMap (fun r => l.filter (fun x => key x == r))

/-- Python `node[0][attr]` when it does not raise: the attribute value of a
JSON object, `none` for a missing key or a non-object. -/
def attrValue (attr : Str) : Json → Option Json
  | .obj kvs => (kvs.find? (fun kv => kv.1 == attr)).map (fun kv => kv.2)
  | _ => none

/-- The guard `len(node) > 1 and isinstance(node[0], dict) and attr in node[0]`
of `json_strip_languages`, minus the length test. -/
def jsonFirstHasAttr (attr : Str) (xs : List Json) : Bool :=
  match xs with
  | x :: _ => (attrValue attr x).isSome
  | [] => false

/-- The sort key `preference_index(x[attr], preferred)`; the `none` branch is
unreachable whenever every element carries the attribute. -/
def jsonLangKey (attr : Str) (preferred : List Json) (x : Json) : Nat :=
  match attrValue attr x with
  | some v => preference_index v preferred
  | none => preferred.length

/-- The cut `node[0:k]` of `json_strip_languages`: keep the run starting at
index 0 whose `val` agrees with that of the first element. -/
def pruneRun {α : Type} (val : α → Option Json) : List α → List α
  | [] => []
  | x :: rest => x :: rest.takeWhile (fun y => val y == val x)

/-- Sequencing of possibly-failed recursive results: a Python list
comprehension whose body may raise. -/
def seqOpt {α : Type} : List (Option α) → Option (List α)
  | [] => some []
  | none :: _ => none
  | some a :: os =>
      match seqOpt os with
      | some rest => some (a :: rest)
      | none => none

mutual

/-- `json_strip_languages` from `src/freidok_cli/modify.py`. A `none` result
models an uncaught exception (a `KeyError`/`TypeError` raised by the sort key
on an element without the attribute). Sorting, pruning and the recursion into
the surviving elements follow the source line by line; recursive results of
discarded elements are discarded unsequenced, matching Python, which never
visits them. -/
def json_strip_languages (attr : Str) (preferred : List Json) : Json → Option Json
  | .obj kvs => (stripFields attr preferred kvs).map Json.obj
  | .arr xs =>
      let rs := stripList attr preferred xs
      if 1 < xs.length ∧ jsonFirstHasAttr attr xs = true then
        if xs.all (fun x => (attrValue attr x).isSome) then
          (seqOpt ((pruneRun (fun p => attrValue attr p.1)
              (stableSortByKey (fun p => jsonLangKey attr preferred p.1)
                preferred.length (xs.zip rs))).map Prod.snd)).map Json.arr
        else none
      else (seqOpt rs).map Json.arr
  | .null => some .null
  | .bool b => some (.bool b)
  | .num n => some (.num n)
  | .str s => some (.str s)

def stripList (attr : Str) (preferred : List Json) : List Json → List (Option Json)
  | [] => []
  | x :: xs => json_strip_languages attr preferred x :: stripList attr preferred xs

def stripFields (attr : Str) (preferred : List Json) :
    List (Str × Json) → Option (List (Str × Json))
  | [] => some []
  | (k, v) :: kvs =>
      (json_strip_languages attr preferred v).bind (fun w =>
        (stripFields attr preferred kvs).map (fun rest => (k, w) :: rest))

end

/-- Python `sep.join(parts)`. -/
def sepJoin (sep : Str) : List Str → Str
  | [] => []
  | [x] => x
  | x :: xs => x ++ sep ++ sepJoin sep xs

/-- The sort `node.sort(key=lambda x: preference_index(x[attr], preferred))`
on a JSON list. -/
def stableSortByPref (attr : Str) (preferred : List Json) (xs : List Json) : List Json :=
  stableSortByKey (jsonLangKey attr preferred) preferred.length xs

/-- Modelled from the spec: the generated publication models
(`freidok_cli.models.publications`) are not among the sources; per §3 a
`Person` is `{ forename: string|null, surname: string|null }` (the `value`
fallback field is unused by the engine). -/
structure Person where
  forename : Option Str
  surname : Option Str
deriving DecidableEq

/-- Modelled from the spec: an `Identifier` `{ type: string|null,
link: string|null }` (element of a record's `pub_ids`). -/
structure PubId where
  type : Option Str
  link : Option Str
deriving DecidableEq

/-- Modelled from the spec: a `LocalizedText`
`{ language: string|null, value: string }` (element of a record's `titles`). -/
structure Title where
  language : Option Str
  value : Str
deriving DecidableEq

/-- Modelled from the spec: a record (`Doc`), restricted to the fields the
engine touches. A missing optional list field is represented by the empty
list, per §7 the representation under which every operation is total. The
engine-derived `_extras_authors` field starts out absent (`none`). -/
structure Doc where
  titles : List Title
  pub_ids : List PubId
  persons : List Person
  extras_authors : Option Str
deriving DecidableEq

/-- Modelled from the spec: a `RecordCollection` (`Publications`), the
ordered `docs` list. -/
structure Publications where
  docs : List Doc
deriving DecidableEq

/-- `sort_links_by_type` from `src/freidok_cli/modify.py`: stable in-place
sort of each record's `pub_ids` by `preference_index(p.type, preferred)`,
skipped for a falsy (absent/empty) `pub_ids`. -/
def sort_links_by_type (publist : Publications) (preferred : List Str) : Publications :=
  { docs := publist.docs.map (fun pub =>
      if pub.pub_ids.isEmpty then pub
      else { pub with pub_ids :=
                (stableSortByKey (fun p => preference_index p.type (preferred.map some))
                  preferred.length pub.pub_ids) }) }

/-- `_abbreviate` from `src/freidok_cli/modify.py`:
`sep.join(c[0].upper() for c in name.split()) + sep`, guarded by
`if not name: return ""` (which catches both `None` and `""`). -/
def abbreviate_ (name : Option Str) (sep : Str) : Str :=
  match name with
  | none => []
  | some s =>
      if s = [] then []
      else sepJoin sep ((wsTokens s).map (fun t => (t.take 1).map Char.toUpper)) ++ sep

/-- `get_author_name` from `src/freidok_cli/modify.py`. -/
def get_author_name (author : Person) (abbr : Option Str) (reverse : Bool) : Str :=
  let firstname := author.forename.getD []
  let lastname := author.surname.getD []
  let firstname := match abbr with
    | some sep => abbreviate_ (some firstname) sep
    | none => firstname
  let name := if reverse then lastname ++ [' '] ++ firstname
              else firstname ++ [' '] ++ lastname
  trimWs name

/-- `add_author_list_string` from `src/freidok_cli/modify.py`: attaches the
joined author names to every record as `_extras_authors`. -/
def add_author_list_string (publist : Publications) (abbr : Option Str)
    (reverse : Bool) (sep : Option Str) : Publications :=
  let sep := sep.getD (", ".data)
  { docs := publist.docs.map (fun pub =>
      { pub with extras_authors :=
          (some (sepJoin sep
            (pub.persons.map (fun a => get_author_name a abbr reverse)))) }) }

/-- `publication_has_author` from `src/freidok_cli/modify.py` (the
`str | list[str]` argument is taken in its list form). -/
def publication_has_author (pub : Doc) (names : List Str) : Bool :=
  let lnames := names.map strLower
  pub.persons.any (fun pers =>
    let name_value := get_author_name pers none false
    lnames.any (fun n => strContains (strLower name_value) n))

/-- `publication_has_title` from `src/freidok_cli/modify.py`. -/
def publication_has_title (pub : Doc) (titles : List Str) : Bool :=
  let ltitles := titles.map strLower
  pub.titles.any (fun tv => ltitles.any (fun t => strContains (strLower tv.value) t))

/-- `exclude_publications_by_author` from `src/freidok_cli/modify.py`. -/
def exclude_publications_by_author (publist : Publications) (names : List Str) : Publications :=
  { publist with docs := publist.docs.filter (fun pub => !(publication_has_author pub names)) }

/-- `exclude_publications_by_title` from `src/freidok_cli/modify.py`. -/
def exclude_publications_by_title (publist : Publications) (titles : List Str) : Publications :=
  { publist with docs := publist.docs.filter (fun pub => !(publication_has_title pub titles)) }


/-- Spec §4.5, stated in the spec's own words: some person's composed name
(default formatting) contains some pattern as a substring, ignoring case. -/
def matchesAnyAuthor (pub : Doc) (patterns : List Str) : Prop :=
  ∃ pers ∈ pub.persons, ∃ pat ∈ patterns,
    strLower pat <:+: strLower (get_author_name pers none false)

/-- Spec §4.5, stated in the spec's own words: some title value contains some
pattern as a substring, ignoring case. -/
def matchesAnyTitle (pub : Doc) (patterns : List Str) : Prop :=
  ∃ t ∈ pub.titles, ∃ pat ∈ patterns, strLower pat <:+: strLower t.value

instance (pub : Doc) (patterns : List Str) : Decidable (matchesAnyAuthor pub patterns) := by
  unfold matchesAnyAuthor
  infer_instance

instance (pub : Doc) (patterns : List Str) : Decidable (matchesAnyTitle pub patterns) := by
  unfold matchesAnyTitle
  infer_instance

theorem stripList_eq_map (attr : Str) (preferred : List Json) (xs : List Json) :
    stripList attr preferred xs = xs.map (json_strip_languages attr preferred) := by
  induction xs with
  | nil => rfl
  | cons x xs ih => simp [stripList, ih]

theorem strip_scalar (attr : Str) (preferred : List Json) :
    json_strip_languages attr preferred .null = some .null ∧
    (∀ b, json_strip_languages attr preferred (.bool b) = some (.bool b)) ∧
    (∀ n, json_strip_languages attr preferred (.num n) = some (.num n)) ∧
    (∀ s, json_strip_languages attr preferred (.str s) = some (.str s)) := by
  refine ⟨rfl, fun b => rfl, fun n => rfl, fun s => rfl⟩

theorem strip_obj_def (attr : Str) (preferred : List Json) (kvs : List (Str × Json)) :
    json_strip_languages attr preferred (.obj kvs)
      = (stripFields attr preferred kvs).map Json.obj := rfl

theorem strip_arr_def (attr : Str) (preferred : List Json) (xs : List Json) :
    json_strip_languages attr preferred (.arr xs)
      = (if 1 < xs.length ∧ jsonFirstHasAttr attr xs = true then
          if xs.all (fun x => (attrValue attr x).isSome) then
            (seqOpt ((pruneRun (fun p => attrValue attr p.1)
                (stableSortByKey (fun p => jsonLangKey attr preferred p.1)
                  preferred.length (xs.zip (stripList attr preferred xs)))).map
                    Prod.snd)).map Json.arr
          else none
        else (seqOpt (stripList attr preferred xs)).map Json.arr) := rfl

theorem seqOpt_eq_some_iff {α : Type} (os : List (Option α)) (ys : List α) :
    seqOpt os = some ys ↔ List.Forall₂ (fun o y => o = some y) os ys := by
  induction os generalizing ys with
  | nil =>
      cases ys <;> simp [seqOpt]
  | cons o os ih =>
      cases o with
      | none =>
          simp only [seqOpt]
          constructor
          · intro h; cases h
          · intro h; cases h with
            | cons h1 h2 => cases h1
      | some a =>
          cases ys with
          | nil =>
              simp only [seqOpt]
              constructor
              · intro h
                rcases hs : seqOpt os with _ | v <;> rw [hs] at h <;> cases h
              · intro h; cases h
          | cons y ys =>
              constructor
              · intro h
                rcases hs : seqOpt os with _ | v <;> rw [seqOpt, hs] at h
                · cases h
                · cases h
                  exact List.Forall₂.cons rfl ((ih _).mp hs)
              · intro h
                cases h with
                | cons h1 h2 =>
                    injection h1 with h1
                    subst h1
                    rw [seqOpt, (ih ys).mpr h2]

theorem seqOpt_map_some {α : Type} (l : List α) : seqOpt (l.map some) = some l := by
  rw [seqOpt_eq_some_iff]
  induction l with
  | nil => exact List.Forall₂.nil
  | cons x l ih => exact List.Forall₂.cons rfl ih

theorem preference_index_le_length {α : Type} [DecidableEq α] (v : α) (ps : List α) :
    preference_index v ps ≤ ps.length := by
  induction ps with
  | nil => simp [preference_index]
  | cons p ps ih =>
      rw [preference_index]
      split <;> simp [Nat.succ_le_succ ih]

theorem preference_index_of_not_mem {α : Type} [DecidableEq α] {v : α} {ps : List α}
    (h : v ∉ ps) : preference_index v ps = ps.length := by
  induction ps with
  | nil => rfl
  | cons p ps ih =>
      have h1 : ¬ p = v := fun hh => h (by simp [hh])
      have h2 : v ∉ ps := fun hh => h (List.mem_cons_of_mem _ hh)
      rw [preference_index, if_neg h1, ih h2, List.length_cons]

theorem get?_preference_index {α : Type} [DecidableEq α] {v : α} {ps : List α}
    (h : v ∈ ps) : ps.get? (preference_index v ps) = some v := by
  induction ps with
  | nil => cases h
  | cons p ps ih =>
      rw [preference_index]
      by_cases hp : p = v
      · simp [hp]
      · rcases List.mem_cons.mp h with h1 | h1
        · exact absurd h1.symm hp
        · simpa [hp] using ih h1

theorem preference_index_min {α : Type} [DecidableEq α] {v : α} {ps : List α} {j : Nat}
    (h : j < preference_index v ps) : ps.get? j ≠ some v := by
  induction ps generalizing j with
  | nil => simp [preference_index] at h
  | cons p ps ih =>
      rw [preference_index] at h
      by_cases hp : p = v
      · rw [if_pos hp] at h; cases h
      · rw [if_neg hp] at h
        cases j with
        | zero => simpa using hp
        | succ j => exact ih (Nat.lt_of_succ_lt_succ h)

theorem preference_index_lt_of_mem {α : Type} [DecidableEq α] {v : α} {ps : List α}
    (h : v ∈ ps) : preference_index v ps < ps.length := by
  rcases Nat.lt_or_ge (preference_index v ps) ps.length with h1 | h1
  · exact h1
  · exfalso
    have := get?_preference_index h
    rw [List.get?_eq_none.mpr h1] at this
    cases this

theorem preference_index_inj {α : Type} [DecidableEq α] {v w : α} {ps : List α}
    (hv : v ∈ ps) (h : preference_index w ps = preference_index v ps) : w = v := by
  have hw : w ∈ ps := by
    by_contra hw
    rw [preference_index_of_not_mem hw] at h
    have := preference_index_lt_of_mem hv
    omega
  have h1 := get?_preference_index hv
  have h2 := get?_preference_index hw
  rw [h, h1] at h2
  injection h2 with h3
  exact h3.symm

theorem flatMap_congr_on {α β : Type} {rs : List α} {f g : α → List β}
    (h : ∀ r ∈ rs, f r = g r) : rs.flatMap f = rs.flatMap g := by
  induction rs with
  | nil => rfl
  | cons r rs ih =>
      rw [List.flatMap_cons, List.flatMap_cons, h r (by simp),
        ih (fun x hx => h x (by simp [hx]))]

theorem flatMap_single {α : Type} {rs : List Nat} {k : Nat} {g : Nat → List α}
    (h1 : rs.Nodup) (h2 : k ∈ rs) (hg : ∀ r ∈ rs, r ≠ k → g r = []) :
    rs.flatMap g = g k := by
  induction rs with
  | nil => cases h2
  | cons r rs ih =>
      rcases List.nodup_cons.mp h1 with ⟨hr1, hr2⟩
      rcases List.mem_cons.mp h2 with h | h
      · subst h
        have hnil : rs.flatMap g = [] := by
          apply List.flatMap_eq_nil_iff.mpr
          intro x hx
          exact hg x (by simp [hx]) (fun hk => hr1 (hk ▸ hx))
        rw [List.flatMap_cons, hnil, List.append_nil]
      · have hrk : r ≠ k := fun hk => hr1 (hk ▸ h)
        rw [List.flatMap_cons, hg r (by simp) hrk, List.nil_append]
        exact ih hr2 h (fun x hx hxk => hg x (by simp [hx]) hxk)

theorem mem_stableSortByKey {α : Type} {key : α → Nat} {bound : Nat} {l : List α} {x : α} :
    x ∈ stableSortByKey key bound l ↔ x ∈ l ∧ key x ≤ bound := by
  simp only [stableSortByKey, List.mem_flatMap, List.mem_range, List.mem_filter, beq_iff_eq]
  constructor
  · rintro ⟨r, hr, hx, hk⟩
    exact ⟨hx, by omega⟩
  · rintro ⟨hx, hk⟩
    exact ⟨key x, by omega, hx, rfl⟩

theorem flatMap_filter_cons_perm {α : Type} {key : α → Nat} {x : α} :
    ∀ {rs : List Nat}, rs.Nodup → key x ∈ rs → ∀ (l : List α),
    List.Perm (rs.flatMap (fun r => (x :: l).filter (fun y => key y == r)))
      (x :: rs.flatMap (fun r => l.filter (fun y => key y == r))) := by
  intro rs hn hx l
  induction rs with
  | nil => cases hx
  | cons r rs ih =>
      rcases List.nodup_cons.mp hn with ⟨hr1, hr2⟩
      rw [List.flatMap_cons, List.flatMap_cons]
      by_cases hr : key x = r
      · have later : rs.flatMap (fun s => (x :: l).filter (fun y => key y == s))
            = rs.flatMap (fun s => l.filter (fun y => key y == s)) := by
          apply flatMap_congr_on
          intro s hs
          have hxs : ¬ key x = s := fun hh => hr1 (hr ▸ hh ▸ hs)
          simp [List.filter_cons, hxs]
        rw [later, List.filter_cons]
        simp [hr]
      · rcases List.mem_cons.mp hx with h | h
        · exact absurd h hr
        · rw [List.filter_cons, if_neg (by simp [hr])]
          refine List.Perm.trans (List.Perm.append_left _ (ih hr2 h)) ?_
          exact List.perm_middle

theorem stableSortByKey_perm {α : Type} {key : α → Nat} {bound : Nat} : ∀ {l : List α},
    (∀ x ∈ l, key x ≤ bound) → List.Perm (stableSortByKey key bound l) l := by
  intro l hb
  induction l with
  | nil =>
      simp only [stableSortByKey]
      rw [List.flatMap_eq_nil_iff.mpr (fun r _ => List.filter_nil _)]
  | cons x l ih =>
      have hx : key x ∈ List.range (bound + 1) := by
        simp [List.mem_range]
        have := hb x (by simp)
        omega
      refine List.Perm.trans ?_ ((ih (fun y hy => hb y (by simp [hy]))).cons x)
      exact flatMap_filter_cons_perm (List.nodup_range _) hx l

theorem stableSortByKey_pairwise {α : Type} (key : α → Nat) (bound : Nat) (l : List α) :
    (stableSortByKey key bound l).Pairwise (fun a b => key a ≤ key b) := by
  rw [stableSortByKey, List.flatMap_def]
  rw [List.pairwise_flatten]
  refine ⟨?_, ?_⟩
  · intro l' hl'
    rcases List.mem_map.mp hl' with ⟨r, _, rfl⟩
    apply List.pairwise_of_forall_mem_list
    intro a ha b hb
    have ha' := (List.mem_filter.mp ha).2
    have hb' := (List.mem_filter.mp hb).2
    rw [beq_iff_eq] at ha' hb'
    omega
  · rw [List.pairwise_map]
    refine List.Pairwise.imp ?_ (List.pairwise_lt_range _)
    intro r s hrs a ha b hb
    have ha' := (List.mem_filter.mp ha).2
    have hb' := (List.mem_filter.mp hb).2
    rw [beq_iff_eq] at ha' hb'
    omega

theorem stableSortByKey_filter {α : Type} {key : α → Nat} {bound : Nat} {l : List α}
    (hb : ∀ x ∈ l, key x ≤ bound) (r : Nat) :
    (stableSortByKey key bound l).filter (fun x => key x == r)
      = l.filter (fun x => key x == r) := by
  by_cases hr : r ≤ bound
  · rw [stableSortByKey, List.filter_flatMap]
    have step : (List.range (bound + 1)).flatMap
          (fun s => (l.filter (fun x => key x == s)).filter (fun x => key x == r))
        = (l.filter (fun x => key x == r)).filter (fun x => key x == r) := by
      apply flatMap_single (k := r) (List.nodup_range _) (by simp [List.mem_range]; omega)
      intro s _ hs
      apply List.filter_eq_nil_iff.mpr
      intro a ha
      have := (List.mem_filter.mp ha).2
      rw [beq_iff_eq] at this
      simp [this, hs]
    rw [step, List.filter_filter]
    apply List.filter_congr
    intro a _
    simp [Bool.and_self]
  · have h1 : l.filter (fun x => key x == r) = [] := by
      apply List.filter_eq_nil_iff.mpr
      intro a ha
      have := hb a ha
      simp [beq_iff_eq]
      omega
    have h2 : (stableSortByKey key bound l).filter (fun x => key x == r) = [] := by
      apply List.filter_eq_nil_iff.mpr
      intro a ha
      have := (mem_stableSortByKey.mp ha).2
      simp [beq_iff_eq]
      omega
    rw [h1, h2]

theorem stableSortByKey_const {α : Type} {key : α → Nat} {bound r : Nat} {l : List α}
    (hc : ∀ x ∈ l, key x = r) (hr : r ≤ bound) : stableSortByKey key bound l = l := by
  rw [stableSortByKey]
  have step : (List.range (bound + 1)).flatMap (fun s => l.filter (fun x => key x == s))
      = l.filter (fun x => key x == r) := by
    apply flatMap_single (k := r) (List.nodup_range _) (by simp [List.mem_range]; omega)
    intro s _ hs
    apply List.filter_eq_nil_iff.mpr
    intro a ha
    simp [beq_iff_eq, hc a ha, Ne.symm hs]
  rw [step]
  apply List.filter_eq_self.mpr
  intro a ha
  simp [beq_iff_eq, hc a ha]

theorem pruneRun_eq_takeWhile {α : Type} (val : α → Option Json) (x : α) (l : List α) :
    pruneRun val (x :: l) = (x :: l).takeWhile (fun y => val y == val x) := by
  rw [pruneRun, List.takeWhile_cons]
  simp

theorem pruneRun_front {α : Type} (val : α → Option Json) (l : List α) :
    pruneRun val l <+: l := by
  cases l with
  | nil => exact List.nil_prefix
  | cons x l =>
      rw [pruneRun_eq_takeWhile]
      exact List.takeWhile_prefix _

theorem mem_pruneRun {α : Type} {val : α → Option Json} {l : List α} {y : α}
    (h : y ∈ pruneRun val l) : y ∈ l :=
  ((pruneRun_front val l).sublist).subset h

theorem pruneRun_all_eq {α : Type} {val : α → Option Json} {x : α} {l : List α} :
    ∀ y ∈ pruneRun val (x :: l), val y = val x := by
  intro y hy
  rw [pruneRun] at hy
  rcases List.mem_cons.mp hy with h | h
  · subst h; rfl
  · have := List.mem_takeWhile_imp h
    rwa [beq_iff_eq] at this

theorem pruneRun_eq_self_of_const {α : Type} {val : α → Option Json} {c : Option Json}
    {l : List α} (h : ∀ y ∈ l, val y = c) : pruneRun val l = l := by
  cases l with
  | nil => rfl
  | cons x l =>
      rw [pruneRun]
      congr 1
      apply List.takeWhile_eq_self_iff.mpr
      intro y hy
      simp [h y (by simp [hy]), h x (by simp)]

theorem takeWhile_eq_filter_of_sorted {α : Type} {p : α → Bool} : ∀ {l : List α},
    l.Pairwise (fun a b => p b = true → p a = true) → l.takeWhile p = l.filter p := by
  intro l h
  induction l with
  | nil => rfl
  | cons x l ih =>
      rcases List.pairwise_cons.mp h with ⟨hx, hl⟩
      by_cases hpx : p x = true
      · rw [List.takeWhile_cons, List.filter_cons, if_pos hpx, if_pos hpx, ih hl]
      · rw [List.takeWhile_cons, List.filter_cons, if_neg hpx, if_neg hpx]
        symm
        apply List.filter_eq_nil_iff.mpr
        intro a ha
        exact fun hpa => hpx (hx a ha hpa)

theorem get?_takeWhile_length {α : Type} {p : α → Bool} : ∀ (l : List α) {z : α},
    l.get? (l.takeWhile p).length = some z → p z = false := by
  intro l
  induction l with
  | nil => intro z h; cases h
  | cons x l ih =>
      intro z h
      by_cases hpx : p x = true
      · rw [List.takeWhile_cons, if_pos hpx, List.length_cons, List.get?_cons_succ] at h
        exact ih h
      · rw [List.takeWhile_cons, if_neg hpx] at h
        rw [List.length_nil, List.get?_cons_zero] at h
        injection h with h
        subst h
        simpa using hpx

theorem zip_map_self {α β : Type} (f : α → β) (l : List α) :
    l.zip (l.map f) = l.map (fun x => (x, f x)) := by
  induction l with
  | nil => rfl
  | cons x l ih => simp [ih]

theorem stableSortByKey_map {α β : Type} (g : α → β) (key : β → Nat) (bound : Nat)
    (l : List α) :
    stableSortByKey key bound (l.map g)
      = (stableSortByKey (fun x => key (g x)) bound l).map g := by
  rw [stableSortByKey, stableSortByKey, List.map_flatMap]
  apply flatMap_congr_on
  intro r _
  rw [List.filter_map]
  rfl

theorem pruneRun_map {α β : Type} (g : α → β) (val : β → Option Json) (l : List α) :
    pruneRun val (l.map g) = (pruneRun (fun x => val (g x)) l).map g := by
  cases l with
  | nil => rfl
  | cons x l =>
      rw [List.map_cons, pruneRun, pruneRun, List.map_cons, List.takeWhile_map]
      rfl

theorem strip_arr_uniform (attr : Str) (preferred : List Json) (xs : List Json)
    (h1 : 1 < xs.length) (h2 : ∀ x ∈ xs, (attrValue attr x).isSome) :
    json_strip_languages attr preferred (.arr xs)
      = (seqOpt ((pruneRun (attrValue attr) (stableSortByPref attr preferred xs)).map
          (json_strip_languages attr preferred))).map Json.arr := by
  rw [strip_arr_def]
  have hfirst : jsonFirstHasAttr attr xs = true := by
    cases xs with
    | nil => simp at h1
    | cons x xs => exact h2 x (by simp)
  rw [if_pos ⟨h1, hfirst⟩,
    if_pos (List.all_eq_true.mpr (fun x hx => h2 x hx))]
  rw [stripList_eq_map, zip_map_self, stableSortByKey_map, pruneRun_map, List.map_map]
  rfl

theorem stripFields_eq_some_iff (attr : Str) (preferred : List Json) :
    ∀ (kvs kvs2 : List (Str × Json)),
    stripFields attr preferred kvs = some kvs2 ↔
      List.Forall₂ (fun kv kv2 => kv.1 = kv2.1 ∧
        json_strip_languages attr preferred kv.2 = some kv2.2) kvs kvs2 := by
  intro kvs
  induction kvs with
  | nil =>
      intro kvs2
      cases kvs2 <;> simp [stripFields]
  | cons kv kvs ih =>
      obtain ⟨k, v⟩ := kv
      intro kvs2
      rw [stripFields, Option.bind_eq_some]
      constructor
      · rintro ⟨w, hw, hrest⟩
        rw [Option.map_eq_some'] at hrest
        rcases hrest with ⟨rest, hrest, hcons⟩
        subst hcons
        exact List.Forall₂.cons ⟨rfl, hw⟩ ((ih rest).mp hrest)
      · intro h
        cases kvs2 with
        | nil => cases h
        | cons kv2 kvs2 =>
            rcases h with _ | ⟨hab, h3⟩
            obtain ⟨k2, v2⟩ := kv2
            obtain ⟨h1, h2⟩ := hab
            refine ⟨v2, h2, ?_⟩
            rw [(ih kvs2).mpr h3, Option.map_some']
            simp only at h1
            rw [h1]

theorem attr_lookup_forall₂ (attr : Str) (f : Json → Option Json) :
    ∀ {kvs kvs2 : List (Str × Json)},
    List.Forall₂ (fun kv kv2 => kv.1 = kv2.1 ∧ f kv.2 = some kv2.2) kvs kvs2 →
    ((kvs.find? (fun kv => kv.1 == attr) = none ∧
        kvs2.find? (fun kv => kv.1 == attr) = none)
     ∨ ∃ k v w, kvs.find? (fun kv => kv.1 == attr) = some (k, v) ∧
         kvs2.find? (fun kv => kv.1 == attr) = some (k, w) ∧ f v = some w) := by
  intro kvs kvs2 h
  induction h with
  | nil => exact Or.inl ⟨rfl, rfl⟩
  | cons hab h ih =>
      rename_i a b l1 l2
      obtain ⟨h1, h2⟩ := hab
      by_cases hk : (a.1 == attr) = true
      · right
        refine ⟨a.1, a.2, b.2, ?_, ?_, h2⟩
        · rw [List.find?_cons_of_pos (p := fun kv : Str × Json => kv.1 == attr) _ hk]
        · rw [List.find?_cons_of_pos (p := fun kv : Str × Json => kv.1 == attr) _
            (by show (b.1 == attr) = true; rw [← h1]; exact hk), h1]
      · rw [List.find?_cons_of_neg (p := fun kv : Str × Json => kv.1 == attr) _ hk,
          List.find?_cons_of_neg (p := fun kv : Str × Json => kv.1 == attr) _
            (by show ¬(b.1 == attr) = true; rw [← h1]; exact hk)]
        exact ih

theorem strip_attrValue (attr : Str) (preferred : List Json) : ∀ {x y : Json},
    json_strip_languages attr preferred x = some y →
    ((attrValue attr x).isSome = (attrValue attr y).isSome) ∧
    (∀ v, attrValue attr x = some v →
      ∃ w, attrValue attr y = some w ∧ json_strip_languages attr preferred v = some w) := by
  intro x y h
  match x with
  | .null =>
      rw [(strip_scalar attr preferred).1] at h
      injection h with h
      subst h
      exact ⟨rfl, fun v hv => by simp [attrValue] at hv⟩
  | .bool b =>
      rw [(strip_scalar attr preferred).2.1 b] at h
      injection h with h
      subst h
      exact ⟨rfl, fun v hv => by simp [attrValue] at hv⟩
  | .num n =>
      rw [(strip_scalar attr preferred).2.2.1 n] at h
      injection h with h
      subst h
      exact ⟨rfl, fun v hv => by simp [attrValue] at hv⟩
  | .str s =>
      rw [(strip_scalar attr preferred).2.2.2 s] at h
      injection h with h
      subst h
      exact ⟨rfl, fun v hv => by simp [attrValue] at hv⟩
  | .arr xs =>
      rw [strip_arr_def] at h
      have harr : ∃ ys, y = Json.arr ys := by
        split at h
        · split at h
          · rcases Option.map_eq_some'.mp h with ⟨ys, _, hy⟩
            exact ⟨ys, hy.symm⟩
          · cases h
        · rcases Option.map_eq_some'.mp h with ⟨ys, _, hy⟩
          exact ⟨ys, hy.symm⟩
      rcases harr with ⟨ys, rfl⟩
      exact ⟨rfl, fun v hv => by simp [attrValue] at hv⟩
  | .obj kvs =>
      rw [strip_obj_def] at h
      rcases Option.map_eq_some'.mp h with ⟨kvs2, hf, hy⟩
      subst hy
      have hall := (stripFields_eq_some_iff attr preferred kvs kvs2).mp hf
      rcases attr_lookup_forall₂ attr (json_strip_languages attr preferred) hall with
        ⟨hn1, hn2⟩ | ⟨k, v, w, hv1, hv2, hvw⟩
      · constructor
        · simp [attrValue, hn1, hn2]
        · intro v hv
          simp [attrValue, hn1] at hv
      · constructor
        · simp [attrValue, hv1, hv2]
        · intro v hv
          rw [attrValue, hv1] at hv
          simp only [Option.map_some'] at hv
          injection hv with hv
          subst hv
          exact ⟨w, by simp [attrValue, hv2], hvw⟩

theorem sizeOf_mem_arr {x : Json} {xs : List Json} (h : x ∈ xs) :
    sizeOf x < sizeOf (Json.arr xs) := by
  have := List.sizeOf_lt_of_mem h
  simp only [Json.arr.sizeOf_spec]
  omega

theorem sizeOf_mem_obj {kv : Str × Json} {kvs : List (Str × Json)} (h : kv ∈ kvs) :
    sizeOf kv.2 < sizeOf (Json.obj kvs) := by
  have h1 := List.sizeOf_lt_of_mem h
  obtain ⟨k, v⟩ := kv
  simp only [Prod.mk.sizeOf_spec] at h1
  simp only [Json.obj.sizeOf_spec]
  omega

theorem jsonLangKey_le (attr : Str) (preferred : List Json) (x : Json) :
    jsonLangKey attr preferred x ≤ preferred.length := by
  unfold jsonLangKey
  split
  · exact preference_index_le_length _ _
  · exact Nat.le_refl _

theorem forall₂_mem_right {α β : Type} {R : α → β → Prop} :
    ∀ {l1 : List α} {l2 : List β}, List.Forall₂ R l1 l2 → ∀ y ∈ l2, ∃ x ∈ l1, R x y := by
  intro l1 l2 h
  induction h with
  | nil => intro y hy; cases hy
  | cons hab h ihh =>
      intro y hy
      rcases List.mem_cons.mp hy with h1 | h1
      · subst h1; exact ⟨_, by simp, hab⟩
      · rcases ihh y h1 with ⟨x, hx, hr⟩
        exact ⟨x, by simp [hx], hr⟩

theorem firstHasAttr_forall₂ {attr : Str} {preferred : List Json} {xs ys : List Json}
    (h : List.Forall₂ (fun x y => json_strip_languages attr preferred x = some y) xs ys) :
    jsonFirstHasAttr attr ys = jsonFirstHasAttr attr xs := by
  cases h with
  | nil => rfl
  | cons hxy h =>
      simp only [jsonFirstHasAttr]
      exact ((strip_attrValue _ _ hxy).1).symm

theorem strip_list_self {attr : Str} {preferred : List Json} {ys : List Json}
    (h : ∀ y ∈ ys, json_strip_languages attr preferred y = some y) :
    (seqOpt (ys.map (json_strip_languages attr preferred))).map Json.arr
      = some (Json.arr ys) := by
  have hseq : seqOpt (ys.map (json_strip_languages attr preferred)) = some ys := by
    rw [seqOpt_eq_some_iff, List.forall₂_map_left_iff]
    exact List.forall₂_same.mpr (fun y hy => h y hy)
  rw [hseq, Option.map_some']

theorem strip_idem_aux (attr : Str) (preferred : List Json) :
    ∀ (n : Nat) (t : Json), sizeOf t ≤ n → ∀ u,
      json_strip_languages attr preferred t = some u →
      json_strip_languages attr preferred u = some u := by
  intro n
  induction n with
  | zero =>
      intro t ht
      exfalso
      cases t <;> simp at ht
  | succ n ih =>
      intro t ht u h
      cases t with
      | null =>
          rw [(strip_scalar attr preferred).1] at h
          injection h with h
          subst h
          exact (strip_scalar attr preferred).1
      | bool b =>
          rw [(strip_scalar attr preferred).2.1 b] at h
          injection h with h
          subst h
          exact (strip_scalar attr preferred).2.1 b
      | num m =>
          rw [(strip_scalar attr preferred).2.2.1 m] at h
          injection h with h
          subst h
          exact (strip_scalar attr preferred).2.2.1 m
      | str s =>
          rw [(strip_scalar attr preferred).2.2.2 s] at h
          injection h with h
          subst h
          exact (strip_scalar attr preferred).2.2.2 s
      | obj kvs =>
          rw [strip_obj_def] at h
          rcases Option.map_eq_some'.mp h with ⟨kvs2, hf, hy⟩
          subst hy
          have hall := (stripFields_eq_some_iff attr preferred kvs kvs2).mp hf
          have hpt : ∀ kv2 ∈ kvs2, json_strip_languages attr preferred kv2.2 = some kv2.2 := by
            intro kv2 hkv2
            rcases forall₂_mem_right hall kv2 hkv2 with ⟨kv, hkv, hk1, hk2⟩
            have hsz := sizeOf_mem_obj hkv
            exact ih kv.2 (by omega) kv2.2 hk2
          rw [strip_obj_def, (stripFields_eq_some_iff attr preferred kvs2 kvs2).mpr
            (List.forall₂_same.mpr (fun kv2 hkv2 => ⟨rfl, hpt kv2 hkv2⟩)), Option.map_some']
      | arr xs =>
          by_cases hg : 1 < xs.length ∧ jsonFirstHasAttr attr xs = true
          · by_cases hsome : xs.all (fun x => (attrValue attr x).isSome) = true
            · have hattr : ∀ x ∈ xs, (attrValue attr x).isSome :=
                fun x hx => List.all_eq_true.mp hsome x hx
              rw [strip_arr_uniform attr preferred xs hg.1 hattr] at h
              have hperm : List.Perm (stableSortByPref attr preferred xs) xs :=
                stableSortByKey_perm (fun x _ => jsonLangKey_le attr preferred x)
              have hmem_sorted : ∀ x ∈ stableSortByPref attr preferred xs, x ∈ xs :=
                fun x hx => (hperm.mem_iff).mp hx
              have hne : stableSortByPref attr preferred xs ≠ [] := by
                intro hnil
                have hlen := hperm.length_eq
                rw [hnil] at hlen
                simp at hlen
                omega
              obtain ⟨s0, srest, hE⟩ := List.exists_cons_of_ne_nil hne
              have hkeptmem : ∀ x ∈ pruneRun (attrValue attr)
                  (stableSortByPref attr preferred xs), x ∈ xs :=
                fun x hx => hmem_sorted x (mem_pruneRun hx)
              have hs0mem : s0 ∈ xs := hmem_sorted s0 (by rw [hE]; simp)
              obtain ⟨v0, hv0⟩ : ∃ v0, attrValue attr s0 = some v0 :=
                Option.isSome_iff_exists.mp (hattr s0 hs0mem)
              have hkeptval : ∀ x ∈ pruneRun (attrValue attr)
                  (stableSortByPref attr preferred xs), attrValue attr x = some v0 := by
                intro x hx
                rw [hE] at hx
                have := pruneRun_all_eq x hx
                rw [this, hv0]
              rcases Option.map_eq_some'.mp h with ⟨ys, hseq, hy⟩
              subst hy
              rw [seqOpt_eq_some_iff, List.forall₂_map_left_iff] at hseq
              obtain ⟨k0, krest, hkE⟩ : ∃ k0 krest,
                  pruneRun (attrValue attr) (stableSortByPref attr preferred xs)
                    = k0 :: krest := by
                rw [hE, pruneRun]
                exact ⟨_, _, rfl⟩
              obtain ⟨y0, yrest, hyE⟩ : ∃ y0 yrest, ys = y0 :: yrest := by
                rw [hkE] at hseq
                cases hseq with
                | cons h1 h2 => exact ⟨_, _, rfl⟩
              obtain ⟨w, hw_y0, hw_v0⟩ : ∃ w, attrValue attr y0 = some w ∧
                  json_strip_languages attr preferred v0 = some w := by
                rw [hkE, hyE] at hseq
                cases hseq with
                | cons h1 h2 =>
                    have hk0 : attrValue attr k0 = some v0 :=
                      hkeptval k0 (by rw [hkE]; simp)
                    exact (strip_attrValue attr preferred h1).2 v0 hk0
              have hysval : ∀ y ∈ ys, attrValue attr y = some w := by
                intro y hy
                rcases forall₂_mem_right hseq y hy with ⟨x, hx, hxy⟩
                rcases (strip_attrValue attr preferred hxy).2 v0 (hkeptval x hx) with
                  ⟨w2, hw2, hw2v⟩
                rw [hw_v0] at hw2v
                injection hw2v with hw2v
                rw [hw2, hw2v]
              have hpt : ∀ y ∈ ys, json_strip_languages attr preferred y = some y := by
                intro y hy
                rcases forall₂_mem_right hseq y hy with ⟨x, hx, hxy⟩
                have hsz := sizeOf_mem_arr (hkeptmem x hx)
                exact ih x (by omega) y hxy
              by_cases hlen2 : 1 < ys.length
              · have hys_some : ∀ y ∈ ys, (attrValue attr y).isSome := by
                  intro y hy
                  rw [hysval y hy]
                  rfl
                rw [strip_arr_uniform attr preferred ys hlen2 hys_some]
                have hkey : ∀ y ∈ ys, jsonLangKey attr preferred y
                    = preference_index w preferred := by
                  intro y hy
                  simp only [jsonLangKey, hysval y hy]
                have hsort : stableSortByPref attr preferred ys = ys := by
                  rw [stableSortByPref]
                  exact stableSortByKey_const hkey (preference_index_le_length _ _)
                rw [hsort, pruneRun_eq_self_of_const hysval]
                exact strip_list_self hpt
              · rw [strip_arr_def, if_neg (fun hc => hlen2 hc.1), stripList_eq_map]
                exact strip_list_self hpt
            · rw [strip_arr_def, if_pos hg, if_neg hsome] at h
              cases h
          · rw [strip_arr_def, if_neg hg, stripList_eq_map] at h
            rcases Option.map_eq_some'.mp h with ⟨ys, hseq, hy⟩
            subst hy
            rw [seqOpt_eq_some_iff, List.forall₂_map_left_iff] at hseq
            have hlen := List.Forall₂.length_eq hseq
            have hfirst := firstHasAttr_forall₂ hseq
            have hpt : ∀ y ∈ ys, json_strip_languages attr preferred y = some y := by
              intro y hy
              rcases forall₂_mem_right hseq y hy with ⟨x, hx, hxy⟩
              have hsz := sizeOf_mem_arr hx
              exact ih x (by omega) y hxy
            rw [strip_arr_def, if_neg (fun hc => hg ⟨by omega, by rw [← hfirst]; exact hc.2⟩),
              stripList_eq_map]
            exact strip_list_self hpt

/-- C9: `preference_index(value, preferenceList)` returns the zero-based
(first) index of `value` in the list when present, and exactly the list
length otherwise; it is a total function of its arguments (no side effects,
no error cases), for any type with decidable equality. -/
theorem C9_preference_index_spec {α : Type} [DecidableEq α] (value : α) (prefs : List α) :
    (value ∈ prefs → prefs.get? (preference_index value prefs) = some value ∧
      ∀ j < preference_index value prefs, prefs.get? j ≠ some value) ∧
    (value ∉ prefs → preference_index value prefs = prefs.length) :=
  ⟨fun h => ⟨get?_preference_index h, fun _ hj => preference_index_min hj⟩,
   fun h => preference_index_of_not_mem h⟩

theorem C9_witness :
    [10, 20, 30].get? (preference_index 20 [10, 20, 30]) = some 20 ∧
    preference_index 99 [10, 20, 30] = [10, 20, 30].length :=
  ⟨((C9_preference_index_spec 20 [10, 20, 30]).1 (by decide)).1,
   (C9_preference_index_spec 99 [10, 20, 30]).2 (by decide)⟩

/-- C4: the language pruner is idempotent. A run that raises is modelled by
`none`, and `Option.bind` composes two runs, so this equation says: if the
first run raises so does the composition, and if it succeeds, running the
pruner again on its output returns that output unchanged. -/
theorem C4_strip_idempotent (attr : Str) (preferred : List Json) (t : Json) :
    (json_strip_languages attr preferred t).bind (json_strip_languages attr preferred)
      = json_strip_languages attr preferred t := by
  cases h : json_strip_languages attr preferred t with
  | none => rfl
  | some u =>
      simpa using strip_idem_aux attr preferred (sizeOf t) t (Nat.le_refl _) u h

/-- C2 counterexample: a mixed list whose FIRST element is a map carrying the
attribute and whose second element lacks it makes the sort key raise
(`KeyError`/`TypeError`), modelled by `none` — the claim's "no pruning, no
error, list left unchanged" is false here. -/
theorem C2_counterexample :
    json_strip_languages "language".data [Json.str "eng".data]
      (Json.arr [Json.obj [("language".data, Json.str "eng".data)], Json.str "x".data])
      = none ∧
    (none : Option Json)
      ≠ some (Json.arr [Json.obj [("language".data, Json.str "eng".data)],
          Json.str "x".data]) :=
  ⟨by decide, by decide⟩

/-- C2 (amended): a list whose first element is not a map carrying the
attribute is left unchanged at this level, with recursion into its elements
only; but when the first element does carry the attribute, some other element
lacks it, and the list has more than one element, the pruner raises (returns
`none`) instead of leaving the list unchanged. -/
theorem C2_mixed_list_spec (attr : Str) (preferred : List Json) (xs : List Json) :
    (jsonFirstHasAttr attr xs = false →
      json_strip_languages attr preferred (Json.arr xs)
        = (seqOpt (xs.map (json_strip_languages attr preferred))).map Json.arr) ∧
    (1 < xs.length → jsonFirstHasAttr attr xs = true →
      (∃ x ∈ xs, attrValue attr x = none) →
      json_strip_languages attr preferred (Json.arr xs) = none) := by
  constructor
  · intro h
    rw [strip_arr_def, if_neg (fun hc => by rw [h] at hc; cases hc.2), stripList_eq_map]
  · rintro h1 h2 ⟨x, hx, hxn⟩
    have hno : ¬ (xs.all (fun x => (attrValue attr x).isSome) = true) := by
      intro hall
      have := List.all_eq_true.mp hall x hx
      rw [hxn] at this
      cases this
    rw [strip_arr_def, if_pos ⟨h1, h2⟩, if_neg hno]

theorem C2_witness :
    json_strip_languages "language".data [Json.str "eng".data]
      (Json.arr [Json.obj [("language".data, Json.str "eng".data)], Json.str "x".data])
      = none :=
  (C2_mixed_list_spec "language".data [Json.str "eng".data]
      [Json.obj [("language".data, Json.str "eng".data)], Json.str "x".data]).2
    (by decide) (by decide) ⟨Json.str "x".data, by decide, by decide⟩

/-- C10: the empty-string pattern matches every record with at least one
person (the empty string is a substring of every composed name), so
excluding by the empty pattern keeps exactly the person-less records. -/
theorem C10_empty_pattern (pub : Doc) (publist : Publications)
    (h : pub.persons ≠ []) :
    publication_has_author pub [[]] = true ∧
    (exclude_publications_by_author publist [[]]).docs
      = publist.docs.filter (fun p => p.persons.isEmpty) := by
  have hone : ∀ p : Doc, publication_has_author p [[]] = !p.persons.isEmpty := by
    intro p
    cases hp : p.persons with
    | nil => simp [publication_has_author, hp]
    | cons a l =>
        simp [publication_has_author, hp, strContains, strLower, List.nil_infix]
  constructor
  · rw [hone]
    cases hp : pub.persons with
    | nil => exact absurd hp h
    | cons a l => rfl
  · show publist.docs.filter (fun p => !(publication_has_author p [[]]))
        = publist.docs.filter (fun p => p.persons.isEmpty)
    apply List.filter_congr
    intro p _
    rw [hone]
    exact Bool.not_not _

theorem C10_witness :
    publication_has_author
      ⟨[], [], [⟨some "Jane".data, some "Smith".data⟩], none⟩ [[]] = true :=
  (C10_empty_pattern ⟨[], [], [⟨some "Jane".data, some "Smith".data⟩], none⟩
    ⟨[]⟩ (by decide)).1

theorem sepJoin_nil (sep : Str) : sepJoin sep [] = [] := rfl

theorem sepJoin_single (sep x : Str) : sepJoin sep [x] = x := rfl

theorem sepJoin_cons_cons (sep x y : Str) (t : List Str) :
    sepJoin sep (x :: y :: t) = x ++ sep ++ sepJoin sep (y :: t) := rfl

theorem sepJoin_append_sep (sep : Str) : ∀ (l : List Str), l ≠ [] →
    sepJoin sep l ++ sep = (l.map (fun t => t ++ sep)).flatten := by
  intro l
  induction l with
  | nil => intro h; exact absurd rfl h
  | cons x l ih =>
      intro _
      cases l with
      | nil => simp [sepJoin_single]
      | cons y t =>
          rw [sepJoin_cons_cons, List.map_cons, List.flatten_cons, ← ih (by simp)]
          simp [List.append_assoc]

theorem abbreviate_some_ne (name sep : Str) (h : name ≠ []) :
    abbreviate_ (some name) sep
      = sepJoin sep ((wsTokens name).map (fun t => (t.take 1).map Char.toUpper)) ++ sep := by
  rw [abbreviate_, if_neg h]

/-- C7 counterexample: a whitespace-only (nonempty) name yields the bare
separator, not the empty string the claim's description ("emit the uppercased
first character of each token followed by the separator") produces. -/
theorem C7_counterexample :
    abbreviate_ (some " ".data) "-".data = "-".data ∧ "-".data ≠ ([] : Str) :=
  ⟨by decide, by decide⟩

/-- C7 (amended): for a name with at least one token, `_abbreviate` emits the
uppercased first character of each whitespace-separated token followed by the
separator (so "Maria Theresa" with "-" gives "M-T-"); an empty or null name
yields the empty string; a nonempty all-whitespace name degenerates to the
bare separator (the join of zero pieces still gets the trailing separator
appended). -/
theorem C7_abbreviate_spec (name sep : Str) (h : name ≠ []) :
    (wsTokens name ≠ [] → abbreviate_ (some name) sep
        = ((wsTokens name).map (fun t => (t.take 1).map Char.toUpper ++ sep)).flatten) ∧
    (wsTokens name = [] → abbreviate_ (some name) sep = sep) ∧
    abbreviate_ none sep = [] ∧
    abbreviate_ (some []) sep = [] := by
  refine ⟨?_, ?_, rfl, rfl⟩
  · intro htoks
    rw [abbreviate_some_ne name sep h,
      sepJoin_append_sep sep _ (by
        intro hmap
        exact htoks (List.map_eq_nil_iff.mp hmap)),
      List.map_map]
    rfl
  · intro htoks
    rw [abbreviate_some_ne name sep h, htoks]
    simp [sepJoin_nil]

theorem C7_witness :
    abbreviate_ (some "Maria Theresa".data) "-".data
      = ((wsTokens "Maria Theresa".data).map
          (fun t => (t.take 1).map Char.toUpper ++ "-".data)).flatten ∧
    abbreviate_ (some "Maria Theresa".data) "-".data = "M-T-".data :=
  ⟨(C7_abbreviate_spec "Maria Theresa".data "-".data (by decide)).1 (by decide),
   by decide⟩

/-- C3 counterexample: on a record with no persons (and the derived field not
yet set), author-string composition is not a no-op — it attaches the derived
`_extras_authors` field, set to the empty string. -/
theorem C3_counterexample :
    add_author_list_string ⟨[⟨[], [], [], none⟩]⟩ none false none
      ≠ (⟨[⟨[], [], [], none⟩]⟩ : Publications) := by decide

/-- C3 (amended): on a record with missing (empty) optional fields, none of
the engine operations raises: identifier sorting and author/title filtering
leave the record unchanged and the matching predicates are false, while
author-string composition still attaches the derived authors string, which is
the empty string. -/
theorem C3_missing_fields (pub : Doc) (preferred : List Str)
    (names titles : List Str) (abbr sep : Option Str) (rev : Bool)
    (ht : pub.titles = []) (hp : pub.pub_ids = []) (hpe : pub.persons = []) :
    sort_links_by_type ⟨[pub]⟩ preferred = ⟨[pub]⟩ ∧
    exclude_publications_by_author ⟨[pub]⟩ names = ⟨[pub]⟩ ∧
    exclude_publications_by_title ⟨[pub]⟩ titles = ⟨[pub]⟩ ∧
    publication_has_author pub names = false ∧
    publication_has_title pub titles = false ∧
    add_author_list_string ⟨[pub]⟩ abbr rev sep
      = ⟨[{ pub with extras_authors := some [] }]⟩ := by
  have hha : publication_has_author pub names = false := by
    simp [publication_has_author, hpe]
  have hht : publication_has_title pub titles = false := by
    simp [publication_has_title, ht]
  refine ⟨?_, ?_, ?_, hha, hht, ?_⟩
  · simp [sort_links_by_type, hp]
  · simp [exclude_publications_by_author, hha]
  · simp [exclude_publications_by_title, hht]
  · simp [add_author_list_string, hpe]
    cases sep <;> simp [sepJoin_nil]

theorem C3_witness :
    sort_links_by_type ⟨[⟨[], [], [], none⟩]⟩ ["doi".data] = ⟨[⟨[], [], [], none⟩]⟩ ∧
    add_author_list_string ⟨[⟨[], [], [], none⟩]⟩ none false none
      = ⟨[⟨[], [], [], some []⟩]⟩ := by
  have h := C3_missing_fields ⟨[], [], [], none⟩ ["doi".data] [] [] none none false
    rfl rfl rfl
  exact ⟨h.1, h.2.2.2.2.2⟩

theorem publication_has_author_iff (pub : Doc) (patterns : List Str) :
    publication_has_author pub patterns = true ↔ matchesAnyAuthor pub patterns := by
  simp only [publication_has_author, matchesAnyAuthor, List.any_eq_true, List.mem_map,
    strContains, decide_eq_true_eq]
  constructor
  · rintro ⟨pers, hpers, n, ⟨pat, hpat, rfl⟩, hinf⟩
    exact ⟨pers, hpers, pat, hpat, hinf⟩
  · rintro ⟨pers, hpers, pat, hpat, hinf⟩
    exact ⟨pers, hpers, strLower pat, ⟨pat, hpat, rfl⟩, hinf⟩

theorem publication_has_title_iff (pub : Doc) (patterns : List Str) :
    publication_has_title pub patterns = true ↔ matchesAnyTitle pub patterns := by
  simp only [publication_has_title, matchesAnyTitle, List.any_eq_true, List.mem_map,
    strContains, decide_eq_true_eq]
  constructor
  · rintro ⟨tv, htv, n, ⟨pat, hpat, rfl⟩, hinf⟩
    exact ⟨tv, htv, pat, hpat, hinf⟩
  · rintro ⟨tv, htv, pat, hpat, hinf⟩
    exact ⟨tv, htv, strLower pat, ⟨pat, hpat, rfl⟩, hinf⟩

/-- C5: the exclusion filters retain exactly the records on which the
case-insensitive substring predicate (stated spec-side as
`matchesAnyAuthor` / `matchesAnyTitle`) is false, preserve the relative
order of the survivors (the result is a sublist), and keep every record
unchanged when the pattern list is empty. -/
theorem C5_exclude_spec (publist : Publications) (patterns : List Str) :
    List.Sublist (exclude_publications_by_author publist patterns).docs publist.docs ∧
    List.Sublist (exclude_publications_by_title publist patterns).docs publist.docs ∧
    (∀ pub, publication_has_author pub patterns = true ↔ matchesAnyAuthor pub patterns) ∧
    (∀ pub, publication_has_title pub patterns = true ↔ matchesAnyTitle pub patterns) ∧
    (exclude_publications_by_author publist patterns).docs
      = publist.docs.filter (fun pub => decide (¬ matchesAnyAuthor pub patterns)) ∧
    (exclude_publications_by_title publist patterns).docs
      = publist.docs.filter (fun pub => decide (¬ matchesAnyTitle pub patterns)) ∧
    exclude_publications_by_author publist [] = publist ∧
    exclude_publications_by_title publist [] = publist := by
  obtain ⟨docs⟩ := publist
  refine ⟨List.filter_sublist _, List.filter_sublist _,
    fun pub => publication_has_author_iff pub patterns,
    fun pub => publication_has_title_iff pub patterns, ?_, ?_, ?_, ?_⟩
  · apply List.filter_congr
    intro pub _
    by_cases hm : matchesAnyAuthor pub patterns
    · simp [hm, (publication_has_author_iff pub patterns).mpr hm]
    · have hb : publication_has_author pub patterns = false := by
        rcases Bool.eq_false_or_eq_true (publication_has_author pub patterns) with hb | hb
        · exact absurd ((publication_has_author_iff pub patterns).mp hb) hm
        · exact hb
      simp [hm, hb]
  · apply List.filter_congr
    intro pub _
    by_cases hm : matchesAnyTitle pub patterns
    · simp [hm, (publication_has_title_iff pub patterns).mpr hm]
    · have hb : publication_has_title pub patterns = false := by
        rcases Bool.eq_false_or_eq_true (publication_has_title pub patterns) with hb | hb
        · exact absurd ((publication_has_title_iff pub patterns).mp hb) hm
        · exact hb
      simp [hm, hb]
  · show Publications.mk (docs.filter _) = Publications.mk docs
    congr 1
    apply List.filter_eq_self.mpr
    intro pub _
    simp [publication_has_author]
  · show Publications.mk (docs.filter _) = Publications.mk docs
    congr 1
    apply List.filter_eq_self.mpr
    intro pub _
    simp [publication_has_title]

theorem trimWs_eq_self_parts {s : Str} (h : trimWs s = s) :
    s.dropWhile Char.isWhitespace = s ∧
    s.reverse.dropWhile Char.isWhitespace = s.reverse := by
  have hd : s.dropWhile Char.isWhitespace = s := by
    have h1 : (s.dropWhile Char.isWhitespace) <:+ s := List.dropWhile_suffix _
    have hlen1 : (s.dropWhile Char.isWhitespace).length ≤ s.length :=
      h1.sublist.length_le
    have hlen2 : s.length ≤ (s.dropWhile Char.isWhitespace).length := by
      conv_lhs => rw [← h]
      rw [trimWs, List.length_reverse]
      calc ((s.dropWhile Char.isWhitespace).reverse.dropWhile Char.isWhitespace).length
          ≤ (s.dropWhile Char.isWhitespace).reverse.length :=
            (List.dropWhile_suffix _).sublist.length_le
        _ = (s.dropWhile Char.isWhitespace).length := List.length_reverse _
    exact h1.sublist.eq_of_length (Nat.le_antisymm hlen1 hlen2)
  refine ⟨hd, ?_⟩
  have h2 : trimWs s = (s.reverse.dropWhile Char.isWhitespace).reverse := by
    rw [trimWs, hd]
  rw [h] at h2
  have h3 := congrArg List.reverse h2
  rw [List.reverse_reverse] at h3
  exact h3.symm

theorem trimWs_append_sep (f s : Str) (hf : trimWs f = f) (hs : trimWs s = s)
    (hf0 : f ≠ []) (hs0 : s ≠ []) :
    trimWs (f ++ [' '] ++ s) = f ++ [' '] ++ s := by
  obtain ⟨hfd, hfr⟩ := trimWs_eq_self_parts hf
  obtain ⟨hsd, hsr⟩ := trimWs_eq_self_parts hs
  have hfront : (f ++ [' '] ++ s).dropWhile Char.isWhitespace = f ++ [' '] ++ s := by
    rw [List.append_assoc, List.dropWhile_append, hfd, if_neg (by simpa using hf0)]
  have hback : (f ++ [' '] ++ s).reverse.dropWhile Char.isWhitespace
      = (f ++ [' '] ++ s).reverse := by
    rw [List.reverse_append, List.dropWhile_append, hsr,
      if_neg (by simpa using hs0)]
  rw [trimWs, hfront, hback, List.reverse_reverse]

theorem trimWs_space_append (s : Str) (hs : trimWs s = s) : trimWs ([' '] ++ s) = s := by
  obtain ⟨hsd, hsr⟩ := trimWs_eq_self_parts hs
  have hfront : ([' '] ++ s).dropWhile Char.isWhitespace = s := by
    rw [List.dropWhile_append]
    simp [hsd]
  rw [trimWs, hfront, hsr, List.reverse_reverse]

theorem trimWs_append_space (f : Str) (hf : trimWs f = f) (hf0 : f ≠ []) :
    trimWs (f ++ [' ']) = f := by
  obtain ⟨hfd, hfr⟩ := trimWs_eq_self_parts hf
  have hfront : (f ++ [' ']).dropWhile Char.isWhitespace = f ++ [' '] := by
    rw [List.dropWhile_append, hfd, if_neg (by simpa using hf0)]
  have hback : (f ++ [' ']).reverse.dropWhile Char.isWhitespace = f.reverse := by
    rw [List.reverse_append]
    simp [hfr]
  rw [trimWs, hfront, hback, List.reverse_reverse]

/-- C6: `get_author_name` (the spec's `composeName`) abbreviates the forename
first when an abbreviation separator is given, joins the two parts with a
single space (surname first when `reverse`), treats a missing part as the
empty string, and trims the result, so a missing part leaves no stray
spaces; in particular composeName("Maria","Klein",null,true) = "Klein Maria". -/
theorem C6_get_author_name_spec (f s : Str) (hf : trimWs f = f) (hs : trimWs s = s)
    (hf0 : f ≠ []) (hs0 : s ≠ []) :
    get_author_name ⟨some f, some s⟩ none false = f ++ [' '] ++ s ∧
    get_author_name ⟨some f, some s⟩ none true = s ++ [' '] ++ f ∧
    get_author_name ⟨none, some s⟩ none false = s ∧
    get_author_name ⟨some f, none⟩ none false = f ∧
    (∀ ab : Str, get_author_name ⟨some f, some s⟩ (some ab) false
        = trimWs (abbreviate_ (some f) ab ++ [' '] ++ s)) ∧
    get_author_name ⟨some "Maria".data, some "Klein".data⟩ none true
      = "Klein Maria".data := by
  refine ⟨?_, ?_, ?_, ?_, fun ab => rfl, by decide⟩
  · exact trimWs_append_sep f s hf hs hf0 hs0
  · exact trimWs_append_sep s f hs hf hs0 hf0
  · show trimWs ([] ++ [' '] ++ s) = s
    rw [List.nil_append]
    exact trimWs_space_append s hs
  · show trimWs (f ++ [' '] ++ []) = f
    rw [List.append_nil]
    exact trimWs_append_space f hf hf0

theorem C6_witness :
    get_author_name ⟨some "Maria".data, some "Klein".data⟩ none true
      = "Klein Maria".data :=
  (C6_get_author_name_spec "Maria".data "Klein".data (by decide) (by decide)
    (by decide) (by decide)).2.2.2.2.2

/-- C8: the identifier sorter leaves a record with an absent (empty)
identifier list untouched and never errors; otherwise it stably re-sorts
`pub_ids` by preference rank of the identifier type: the new list is a
permutation of the old, is sorted by rank (so the preferred type moves to the
front), every rank class — including all unranked identifiers — keeps its
original relative order, and all other fields are unchanged. -/
theorem C8_sort_links_spec (publist : Publications) (preferred : List Str) :
    List.Forall₂ (fun pub2 pub =>
        pub2.titles = pub.titles ∧ pub2.persons = pub.persons ∧
        pub2.extras_authors = pub.extras_authors ∧
        (pub.pub_ids = [] → pub2 = pub) ∧
        List.Perm pub2.pub_ids pub.pub_ids ∧
        pub2.pub_ids.Pairwise (fun a b =>
          preference_index a.type (preferred.map some)
            ≤ preference_index b.type (preferred.map some)) ∧
        (∀ r, pub2.pub_ids.filter
            (fun p => preference_index p.type (preferred.map some) == r)
          = pub.pub_ids.filter
            (fun p => preference_index p.type (preferred.map some) == r)))
      (sort_links_by_type publist preferred).docs publist.docs := by
  show List.Forall₂ _ (publist.docs.map _) publist.docs
  rw [List.forall₂_map_left_iff]
  apply List.forall₂_same.mpr
  intro pub _
  dsimp only
  by_cases hemp : pub.pub_ids.isEmpty = true
  · have hnil : pub.pub_ids = [] := List.isEmpty_iff.mp hemp
    rw [if_pos hemp]
    exact ⟨rfl, rfl, rfl, fun _ => rfl, List.Perm.refl _,
      by rw [hnil]; exact List.Pairwise.nil, fun r => rfl⟩
  · rw [if_neg hemp]
    have hb : ∀ p ∈ pub.pub_ids,
        preference_index p.type (preferred.map some) ≤ preferred.length := by
      intro p _
      have := preference_index_le_length p.type (preferred.map some)
      rwa [List.length_map] at this
    refine ⟨rfl, rfl, rfl, ?_, stableSortByKey_perm hb,
      stableSortByKey_pairwise _ _ _, fun r => stableSortByKey_filter hb r⟩
    intro h
    exact absurd (List.isEmpty_iff.mpr h) hemp

theorem C8_witness :
    List.Forall₂ (fun pub2 pub =>
        pub2.titles = pub.titles ∧ pub2.persons = pub.persons ∧
        pub2.extras_authors = pub.extras_authors ∧
        (pub.pub_ids = [] → pub2 = pub) ∧
        List.Perm pub2.pub_ids pub.pub_ids ∧
        pub2.pub_ids.Pairwise (fun a b =>
          preference_index a.type (["doi".data].map some)
            ≤ preference_index b.type (["doi".data].map some)) ∧
        (∀ r, pub2.pub_ids.filter
            (fun p => preference_index p.type (["doi".data].map some) == r)
          = pub.pub_ids.filter
            (fun p => preference_index p.type (["doi".data].map some) == r)))
      (sort_links_by_type
        ⟨[⟨[], [⟨some "isbn".data, none⟩, ⟨some "doi".data, none⟩], [], none⟩]⟩
        ["doi".data]).docs
      [⟨[], [⟨some "isbn".data, none⟩, ⟨some "doi".data, none⟩], [], none⟩] :=
  C8_sort_links_spec
    ⟨[⟨[], [⟨some "isbn".data, none⟩, ⟨some "doi".data, none⟩], [], none⟩]⟩
    ["doi".data]

/-- C1 counterexample: with preferred languages `[eng]` and the list
`[{fra,A}, {ita}, {fra,C}]`, the winning language `fra` is unranked, the
stable sort leaves the list unchanged, and the kept run is only `[{fra,A}]` —
the element `{fra,C}`, tied on the winning language, is discarded, so
"elements tied on the winning language are all retained" is false. -/
theorem C1_counterexample :
    json_strip_languages "language".data [Json.str "eng".data]
      (Json.arr
        [Json.obj [("language".data, Json.str "fra".data), ("v".data, Json.str "A".data)],
         Json.obj [("language".data, Json.str "ita".data)],
         Json.obj [("language".data, Json.str "fra".data), ("v".data, Json.str "C".data)]])
      = some (Json.arr
        [Json.obj [("language".data, Json.str "fra".data), ("v".data, Json.str "A".data)]]) ∧
    [Json.obj [("language".data, Json.str "fra".data), ("v".data, Json.str "A".data)],
     Json.obj [("language".data, Json.str "ita".data)],
     Json.obj [("language".data, Json.str "fra".data), ("v".data, Json.str "C".data)]].filter
        (fun y => attrValue "language".data y == some (Json.str "fra".data))
      ≠ [Json.obj [("language".data, Json.str "fra".data), ("v".data, Json.str "A".data)]] :=
  ⟨by decide, by decide⟩

/-- C1 (amended): for a list of more than one element all of which are maps
carrying the attribute, the pruner stably sorts by preference rank (the
sorted list is a permutation, is ordered by rank, and every rank class keeps
its original relative order), keeps exactly the maximal initial run of the
sorted list whose attribute value equals that of the new first element (a
prefix of constant attribute value whose successor, if any, differs), and
recurses into exactly the kept elements. When the winning attribute value
occurs in the preferred list, the kept run is precisely all original elements
carrying that value, in their original relative order; for an unranked
winning value, tied elements beyond the initial run are discarded. -/
theorem C1_prune_spec (attr : Str) (preferred : List Json) (xs : List Json)
    (hlen : 1 < xs.length)
    (hall : ∀ x ∈ xs, (attrValue attr x).isSome) :
    List.Perm (stableSortByPref attr preferred xs) xs ∧
    (stableSortByPref attr preferred xs).Pairwise
      (fun a b => jsonLangKey attr preferred a ≤ jsonLangKey attr preferred b) ∧
    (∀ r, (stableSortByPref attr preferred xs).filter
        (fun x => jsonLangKey attr preferred x == r)
      = xs.filter (fun x => jsonLangKey attr preferred x == r)) ∧
    pruneRun (attrValue attr) (stableSortByPref attr preferred xs)
      <+: stableSortByPref attr preferred xs ∧
    json_strip_languages attr preferred (Json.arr xs)
      = (seqOpt ((pruneRun (attrValue attr) (stableSortByPref attr preferred xs)).map
          (json_strip_languages attr preferred))).map Json.arr ∧
    (∀ x0 xrest, stableSortByPref attr preferred xs = x0 :: xrest →
      (∀ y ∈ pruneRun (attrValue attr) (x0 :: xrest),
          attrValue attr y = attrValue attr x0) ∧
      (∀ z, (x0 :: xrest).get? (pruneRun (attrValue attr) (x0 :: xrest)).length
          = some z → attrValue attr z ≠ attrValue attr x0) ∧
      (∀ v, attrValue attr x0 = some v → v ∈ preferred →
        pruneRun (attrValue attr) (x0 :: xrest)
          = xs.filter (fun y => attrValue attr y == some v))) := by
  have hb : ∀ x ∈ xs, jsonLangKey attr preferred x ≤ preferred.length :=
    fun x _ => jsonLangKey_le attr preferred x
  have hperm : List.Perm (stableSortByPref attr preferred xs) xs :=
    stableSortByKey_perm hb
  refine ⟨hperm, stableSortByKey_pairwise _ _ _,
    fun r => stableSortByKey_filter hb r, pruneRun_front _ _,
    strip_arr_uniform attr preferred xs hlen hall, ?_⟩
  intro x0 xrest hE
  refine ⟨pruneRun_all_eq, ?_, ?_⟩
  · intro z hz
    rw [pruneRun_eq_takeWhile] at hz
    have hfalse := get?_takeWhile_length _ hz
    intro hcontra
    rw [hcontra] at hfalse
    simp at hfalse
  · intro v hv hvmem
    have hsorted_mem : ∀ y ∈ x0 :: xrest, y ∈ xs := by
      intro y hy
      have hym : y ∈ stableSortByPref attr preferred xs := by rw [hE]; exact hy
      exact hperm.mem_iff.mp hym
    have hx0key : jsonLangKey attr preferred x0 = preference_index v preferred := by
      simp only [jsonLangKey, hv]
    have hpw : (x0 :: xrest).Pairwise
        (fun a b => jsonLangKey attr preferred a ≤ jsonLangKey attr preferred b) := by
      have hsp := stableSortByKey_pairwise (jsonLangKey attr preferred)
        preferred.length xs
      rwa [show stableSortByKey (jsonLangKey attr preferred) preferred.length xs
        = stableSortByPref attr preferred xs from rfl, hE] at hsp
    have hmin : ∀ y ∈ x0 :: xrest,
        preference_index v preferred ≤ jsonLangKey attr preferred y := by
      intro y hy
      rcases List.mem_cons.mp hy with h | h
      · subst h; rw [hx0key]
      · have hle := List.rel_of_pairwise_cons hpw h
        rw [hx0key] at hle
        exact hle
    have hpv : ∀ y ∈ xs, ((attrValue attr y == some v)
        = (jsonLangKey attr preferred y == preference_index v preferred)) := by
      intro y hy
      obtain ⟨vy, hvy⟩ := Option.isSome_iff_exists.mp (hall y hy)
      rw [hvy, show jsonLangKey attr preferred y = preference_index vy preferred from
        by simp only [jsonLangKey, hvy]]
      by_cases hveq : vy = v
      · subst hveq
        simp
      · have hkey : preference_index vy preferred ≠ preference_index v preferred := by
          intro heq
          exact hveq (preference_index_inj hvmem heq)
        simp [hveq, hkey]
    have hrun : pruneRun (attrValue attr) (x0 :: xrest)
        = (x0 :: xrest).takeWhile (fun y => attrValue attr y == attrValue attr x0) :=
      pruneRun_eq_takeWhile _ _ _
    have htf : (x0 :: xrest).takeWhile (fun y => attrValue attr y == attrValue attr x0)
        = (x0 :: xrest).filter (fun y => attrValue attr y == attrValue attr x0) := by
      apply takeWhile_eq_filter_of_sorted
      apply List.Pairwise.imp_of_mem ?_ hpw
      intro a b ha hbm hab hpb
      rw [hv] at hpb ⊢
      rw [hpv b (hsorted_mem b hbm)] at hpb
      rw [hpv a (hsorted_mem a ha)]
      have h2 := hmin a ha
      simp only [beq_iff_eq] at hpb ⊢
      omega
    have hff : (x0 :: xrest).filter (fun y => attrValue attr y == attrValue attr x0)
        = (x0 :: xrest).filter
          (fun y => jsonLangKey attr preferred y == preference_index v preferred) := by
      apply List.filter_congr
      intro y hy
      rw [hv]
      exact hpv y (hsorted_mem y hy)
    have hstab : (x0 :: xrest).filter
          (fun y => jsonLangKey attr preferred y == preference_index v preferred)
        = xs.filter
          (fun y => jsonLangKey attr preferred y == preference_index v preferred) := by
      have hsf := stableSortByKey_filter hb (preference_index v preferred)
      rwa [show stableSortByKey (jsonLangKey attr preferred) preferred.length xs
        = stableSortByPref attr preferred xs from rfl, hE] at hsf
    have hback : xs.filter
          (fun y => jsonLangKey attr preferred y == preference_index v preferred)
        = xs.filter (fun y => attrValue attr y == some v) := by
      apply List.filter_congr
      intro y hy
      exact (hpv y hy).symm
    rw [hrun, htf, hff, hstab, hback]

theorem C1_witness :
    List.Perm (stableSortByPref "language".data [Json.str "eng".data]
        [Json.obj [("language".data, Json.str "deu".data)],
         Json.obj [("language".data, Json.str "eng".data)]])
      [Json.obj [("language".data, Json.str "deu".data)],
       Json.obj [("language".data, Json.str "eng".data)]] :=
  (C1_prune_spec "language".data [Json.str "eng".data]
    [Json.obj [("language".data, Json.str "deu".data)],
     Json.obj [("language".data, Json.str "eng".data)]]
    (by decide) (by decide)).1
